import Mathlib

/-!
Shallow embedding of the xdcodec-rs binary codec (src/varint.rs and
src/codec.rs) together with proofs of the specified properties.

Byte streams are modelled as `List Nat` (each byte a value below 256);
readers take the stream and return the parsed value together with the
remaining stream, or an error.  Machine integers are modelled as `Nat`
(`u64`, with `% 2 ^ 64` where overflow matters) and `Int` (`i64`).
-/

set_option maxRecDepth 8000

namespace Xdcodec

/-- Error outcomes of the codec, modelling the `std::io` error kinds the
source produces: `read_exact` on an exhausted source, the
`InvalidData` error of `read_uvarint` (malformed varint), the
`InvalidData` error of `read_typed` carrying the unknown tag byte, and
the `InvalidInput` error of `write_list` and `write_map` (container too
large). -/
inductive IOErr where
  | unexpectedEof
  | malformedVarint
  | unknownTypeTag (t : Nat)
  | containerTooLarge
deriving Repr, DecidableEq

/-- MAX_VARINT_LEN from src/varint.rs. -/
def MAX_VARINT_LEN : Nat := 10

/-- Models `write_uvarint` from src/varint.rs: while `un >= 0x80` emit
`(un as u8) | 0x80` (that is `(un % 256) ||| 0x80`) and shift `un`
right by 7; finally emit the remaining byte.  The sink never fails in
the model, so the produced bytes are returned directly. -/
def write_uvarint (un : Nat) : List Nat :=
  if 0x80 ≤ un then ((un % 256) ||| 0x80) :: write_uvarint (un >>> 7)
  else [un]
termination_by un
decreasing_by simp [Nat.shiftRight_eq_div_pow]; omega

/-- Bitwise NOT on `u64` (`!un` in the source): the complement within
`[0, 2 ^ 64)`, which equals `2 ^ 64 - 1 - un` for `un < 2 ^ 64`. -/
def u64not (un : Nat) : Nat := 2 ^ 64 - 1 - un

/-- Models `write_varint` from src/varint.rs: `un = (n as u64) << 1`
(the cast of the `i64` to `u64` is `n` modulo `2 ^ 64`), complemented
when `n < 0` (the zigzag transform), then written as a uvarint. -/
def write_varint (n : Int) : List Nat :=
  let un := ((n % (2 ^ 64 : Int)).toNat <<< 1) % 2 ^ 64
  write_uvarint (if n < 0 then u64not un else un)

/-- Models the loop of `read_uvarint` from src/varint.rs with its state
`x` (accumulator), `s` (shift) and `i` (index of the current byte).
Every `u64` operation is reduced modulo `2 ^ 64`. -/
def read_uvarint_loop (x s i : Nat) : List Nat → Except IOErr (Nat × List Nat)
  | [] => .error .unexpectedEof
  | byte :: rest =>
    if byte < 0x80 then
      if 9 < i ∨ (i = 9 ∧ 1 < byte) then .error .malformedVarint
      else .ok (x ||| (byte <<< s) % 2 ^ 64, rest)
    else read_uvarint_loop (x ||| ((byte &&& 0x7f) <<< s) % 2 ^ 64) (s + 7) (i + 1) rest

/-- Models `read_uvarint` from src/varint.rs: run the loop from the
initial state `x = 0`, `s = 0`, `i = 0`. -/
def read_uvarint (bs : List Nat) : Except IOErr (Nat × List Nat) :=
  read_uvarint_loop 0 0 0 bs

/-- Models `read_varint` from src/varint.rs: read a uvarint `un`, take
`n = (un >> 1) as i64` and bitwise-complement it (`!n = -(n + 1)` in
two's complement) when the low bit of `un` is set. -/
def read_varint (bs : List Nat) : Except IOErr (Int × List Nat) :=
  match read_uvarint bs with
  | .error e => .error e
  | .ok (un, rest) =>
    let n : Int := (un >>> 1 : Nat)
    .ok (if un &&& 1 ≠ 0 then -(n + 1) else n, rest)

/-- Disjoint bit ranges: an `or` with a value shifted above all bits of
`a` is an addition. -/
theorem lor_shiftLeft_eq_add : ∀ (m a c : Nat), a < 2 ^ m → a ||| c <<< m = a + c <<< m := by
  intro m
  induction m with
  | zero =>
    intro a c ha
    have : a = 0 := by omega
    subst this
    simp
  | succ m ih =>
    intro a c ha
    have hbit : Nat.bit a.bodd a.div2 = a := Nat.bit_decomp a
    have hc : c <<< (m + 1) = Nat.bit false (c <<< m) := by
      simp [Nat.bit_val, Nat.shiftLeft_eq, Nat.pow_succ]
      ring
    calc a ||| c <<< (m + 1)
        = Nat.bit a.bodd a.div2 ||| Nat.bit false (c <<< m) := by rw [hbit, hc]
      _ = Nat.bit (a.bodd || false) (a.div2 ||| c <<< m) := Nat.lor_bit _ _ _ _
      _ = Nat.bit a.bodd (a.div2 + c <<< m) := by
          rw [ih a.div2 c (by
            have := Nat.bit_decomp a
            simp [Nat.bit_val] at this
            omega), Bool.or_false]
      _ = a + c <<< (m + 1) := by
          have h1 := Nat.bit_decomp a
          simp [Nat.bit_val] at h1 ⊢
          rw [hc] at *
          simp [Nat.bit_val]
          omega

/-- The continuation byte `(v ||| 0x80)` of a value `v < 256` is in
`[0x80, 0x100)` and its payload bits are `v % 128`. -/
theorem contByteFacts : ∀ v < 256, 128 ≤ (v ||| 128) ∧ (v ||| 128) < 256 ∧ (v ||| 128) &&& 127 = v % 128 := by decide

/-- Central round-trip invariant of the uvarint loop: started at byte
index `i` with shift `7 * i` and an accumulator holding only bits below
`7 * i`, reading the encoding of `un` appends `un`'s bits above the
accumulator and consumes exactly the encoding. -/
theorem read_loop_write : ∀ un i x rest, un < 2 ^ (64 - 7 * i) → i ≤ 9 → x < 2 ^ (7 * i) →
    read_uvarint_loop x (7 * i) i (write_uvarint un ++ rest) = .ok (x + un <<< (7 * i), rest) := by
  intro un
  induction un using Nat.strong_induction_on with
  | _ un ih =>
    intro i x rest hun hi hx
    rw [write_uvarint]
    by_cases h : 0x80 ≤ un
    · have hi8 : i ≤ 8 := by
        by_contra hgt
        have : i = 9 := by omega
        subst this
        simp at hun
        omega
      have hbf := contByteFacts (un % 256) (Nat.mod_lt _ (by omega))
      rw [if_pos h, List.cons_append, read_uvarint_loop]
      rw [if_neg (by omega)]
      have hmod : (un % 256) % 128 = un % 128 := Nat.mod_mod_of_dvd un (by omega)
      rw [hbf.2.2, hmod]
      have hsmall : (un % 128) <<< (7 * i) < 2 ^ 64 := by
        rw [Nat.shiftLeft_eq]
        have h1 : un % 128 * 2 ^ (7 * i) < 128 * 2 ^ (7 * i) :=
          (Nat.mul_lt_mul_right (Nat.pos_pow_of_pos _ (by omega))).mpr (Nat.mod_lt _ (by omega))
        have h2 : (128 : Nat) * 2 ^ (7 * i) = 2 ^ (7 * i + 7) := by rw [Nat.pow_add]; ring
        have h3 : (2 : Nat) ^ (7 * i + 7) ≤ 2 ^ 64 := Nat.pow_le_pow_right (by omega) (by omega)
        omega
      rw [Nat.mod_eq_of_lt hsmall]
      rw [lor_shiftLeft_eq_add _ _ _ hx]
      have hx2 : x + (un % 128) <<< (7 * i) < 2 ^ (7 * (i + 1)) := by
        rw [Nat.shiftLeft_eq]
        have : x + un % 128 * 2 ^ (7 * i) < 2 ^ (7 * i) + 127 * 2 ^ (7 * i) := by
          have h127 : un % 128 ≤ 127 := by omega
          have := Nat.mul_le_mul_right (2 ^ (7 * i)) h127
          omega
        calc x + un % 128 * 2 ^ (7 * i) < 128 * 2 ^ (7 * i) := by omega
          _ = 2 ^ (7 * (i + 1)) := by rw [show 7 * (i + 1) = 7 * i + 7 by ring, Nat.pow_add]; ring
      have hun2 : un >>> 7 < 2 ^ (64 - 7 * (i + 1)) := by
        rw [Nat.shiftRight_eq_div_pow]
        have hpow : 2 ^ (64 - 7 * i) = 2 ^ (64 - 7 * (i + 1)) * 2 ^ 7 := by
          rw [← Nat.pow_add]
          congr 1
          omega
        rw [hpow] at hun
        omega
      have hrec := ih (un >>> 7) (by
          rw [Nat.shiftRight_eq_div_pow]
          exact Nat.div_lt_self (by omega) (by omega))
        (i + 1) (x + (un % 128) <<< (7 * i)) rest hun2 (by omega) hx2
      rw [show 7 * i + 7 = 7 * (i + 1) by ring, hrec]
      congr 2
      simp only [Nat.shiftLeft_eq, Nat.shiftRight_eq_div_pow]
      have hd : 128 * (un / 128) + un % 128 = un := Nat.div_add_mod un 128
      have hp : (2 : Nat) ^ (7 * (i + 1)) = 2 ^ (7 * i) * 128 := by
        rw [show 7 * (i + 1) = 7 * i + 7 by ring, Nat.pow_add]
      calc x + un % 128 * 2 ^ (7 * i) + un / 128 * 2 ^ (7 * (i + 1))
          = x + (128 * (un / 128) + un % 128) * 2 ^ (7 * i) := by rw [hp]; ring
        _ = x + un * 2 ^ (7 * i) := by rw [hd]
    · rw [if_neg h, List.cons_append, read_uvarint_loop]
      rw [if_pos (by omega)]
      have hguard : ¬(9 < i ∨ (i = 9 ∧ 1 < un)) := by
        rintro (hbad | ⟨h9, hbad⟩)
        · omega
        · subst h9
          simp at hun
          omega
      rw [if_neg hguard]
      have hsmall : un <<< (7 * i) < 2 ^ 64 := by
        rw [Nat.shiftLeft_eq]
        have h1 : un * 2 ^ (7 * i) < 2 ^ (64 - 7 * i) * 2 ^ (7 * i) :=
          (Nat.mul_lt_mul_right (Nat.pos_pow_of_pos _ (by omega))).mpr hun
        have h2 : (2 : Nat) ^ (64 - 7 * i) * 2 ^ (7 * i) = 2 ^ 64 := by
          rw [← Nat.pow_add]
          congr 1
          omega
        omega
      rw [Nat.mod_eq_of_lt hsmall, lor_shiftLeft_eq_add _ _ _ hx]
      simp

/-- Reading a freshly written uvarint returns the value and leaves any
trailing bytes untouched. -/
theorem read_write_uvarint (u : Nat) (hu : u < 2 ^ 64) (rest : List Nat) :
    read_uvarint (write_uvarint u ++ rest) = .ok (u, rest) := by
  have := read_loop_write u 0 0 rest (by simpa using hu) (by omega) (by simp)
  simpa [read_uvarint] using this

/-- The uvarint loop always consumes at least one byte on success. -/
theorem read_uvarint_loop_consumes {x s i : Nat} {bs : List Nat} {u : Nat} {rest : List Nat}
    (h : read_uvarint_loop x s i bs = .ok (u, rest)) : rest.length < bs.length := by
  induction bs generalizing x s i with
  | nil => simp [read_uvarint_loop] at h
  | cons b tl ih =>
    simp only [read_uvarint_loop] at h
    split at h
    · split at h
      · exact absurd h (by simp)
      · simp at h
        simp [← h.2]
    · exact Nat.lt_trans (ih h) (by simp)

/-- Fact: `read_uvarint` consumes at least one byte on success. -/
theorem read_uvarint_consumes {bs : List Nat} {u : Nat} {rest : List Nat}
    (h : read_uvarint bs = .ok (u, rest)) : rest.length < bs.length :=
  read_uvarint_loop_consumes h

/-- Fact: `read_varint` consumes at least one byte on success. -/
theorem read_varint_consumes {bs : List Nat} {n : Int} {rest : List Nat}
    (h : read_varint bs = .ok (n, rest)) : rest.length < bs.length := by
  unfold read_varint at h
  split at h
  · exact absurd h (by simp)
  · rename_i heq
    simp at h
    rw [← h.2]
    exact read_uvarint_consumes heq

/-- Unfolding of `read_varint` on a stream whose uvarint part is known. -/
theorem read_varint_eq (bs : List Nat) (un : Nat) (rest : List Nat)
    (h : read_uvarint bs = .ok (un, rest)) :
    read_varint bs =
      .ok (if un &&& 1 ≠ 0 then -(((un >>> 1 : Nat) : Int) + 1) else ((un >>> 1 : Nat) : Int),
        rest) := by
  unfold read_varint
  rw [h]

/-- Reading a freshly written varint returns the signed value and leaves
trailing bytes untouched: the zigzag transform of `write_varint` is
reversed exactly by `read_varint`. -/
theorem read_write_varint (n : Int) (h1 : -2 ^ 63 ≤ n) (h2 : n < 2 ^ 63) (rest : List Nat) :
    read_varint (write_varint n ++ rest) = .ok (n, rest) := by
  simp only [write_varint]
  by_cases hneg : n < 0
  · rw [if_pos hneg]
    have hmod : n % (2 ^ 64 : Int) = n + 2 ^ 64 := by omega
    rw [hmod]
    set N : Nat := (n + 2 ^ 64).toNat with hN
    have hNlo : 2 ^ 63 ≤ N := by omega
    have hNhi : N < 2 ^ 64 := by omega
    have hsh : N <<< 1 = 2 * N := by rw [Nat.shiftLeft_eq]; ring
    have hun0 : (N <<< 1) % 2 ^ 64 = 2 * N - 2 ^ 64 := by rw [hsh]; omega
    rw [hun0]
    set un : Nat := u64not (2 * N - 2 ^ 64) with hun
    have hunval : un = 2 ^ 64 - 1 - (2 * N - 2 ^ 64) := rfl
    have hunlt : un < 2 ^ 64 := by omega
    rw [read_varint_eq _ un rest (read_write_uvarint un hunlt rest)]
    have hodd : un % 2 = 1 := by omega
    have hand : un &&& 1 = un % 2 := by
      have := Nat.and_pow_two_sub_one_eq_mod un 1
      simpa using this
    rw [hand, hodd]
    have hval : (un >>> 1 : Nat) = un / 2 := by simp [Nat.shiftRight_eq_div_pow]
    rw [if_pos (by omega), hval]
    have : -(((un / 2 : Nat) : Int) + 1) = n := by omega
    rw [this]
  · rw [if_neg hneg]
    have hge : 0 ≤ n := by omega
    have hmod : n % (2 ^ 64 : Int) = n := by omega
    rw [hmod]
    set N : Nat := n.toNat with hN
    have hNhi : N < 2 ^ 63 := by omega
    have hsh : N <<< 1 = 2 * N := by rw [Nat.shiftLeft_eq]; ring
    have hun0 : (N <<< 1) % 2 ^ 64 = 2 * N := by rw [hsh]; omega
    rw [hun0]
    rw [read_varint_eq _ (2 * N) rest (read_write_uvarint (2 * N) (by omega) rest)]
    have heven : (2 * N) % 2 = 0 := by omega
    have hand : (2 * N) &&& 1 = (2 * N) % 2 := by
      have := Nat.and_pow_two_sub_one_eq_mod (2 * N) 1
      simpa using this
    rw [hand, heven]
    have hval : ((2 * N) >>> 1 : Nat) = N := by rw [Nat.shiftRight_eq_div_pow]; omega
    rw [if_neg (by omega), hval]
    have : ((N : Nat) : Int) = n := by omega
    rw [this]

/-- C2: Varint round-trip.  For every `u64` value `u`, `read_uvarint`
applied to the bytes produced by `write_uvarint u` returns `u`; and for
every `i64` value `n`, `read_varint` applied to the bytes produced by
`write_varint n` returns `n`. -/
theorem varint_roundtrip :
    (∀ u : Nat, u < 2 ^ 64 → read_uvarint (write_uvarint u) = .ok (u, []))
    ∧ (∀ n : Int, -2 ^ 63 ≤ n → n < 2 ^ 63 → read_varint (write_varint n) = .ok (n, [])) := by
  constructor
  · intro u hu
    simpa using read_write_uvarint u hu []
  · intro n h1 h2
    simpa using read_write_varint n h1 h2 []

/-- C2 witness: the round-trip at the boundary values 0, 127, 128,
`2 ^ 56 - 1`, `u64::MAX`, `i64::MIN` and `i64::MAX`. -/
theorem varint_roundtrip_witness :
    read_uvarint (write_uvarint 0) = .ok (0, [])
    ∧ read_uvarint (write_uvarint 127) = .ok (127, [])
    ∧ read_uvarint (write_uvarint 128) = .ok (128, [])
    ∧ read_uvarint (write_uvarint (2 ^ 56 - 1)) = .ok (2 ^ 56 - 1, [])
    ∧ read_uvarint (write_uvarint (2 ^ 64 - 1)) = .ok (2 ^ 64 - 1, [])
    ∧ read_varint (write_varint (-2 ^ 63)) = .ok (-2 ^ 63, [])
    ∧ read_varint (write_varint (2 ^ 63 - 1)) = .ok (2 ^ 63 - 1, []) :=
  ⟨varint_roundtrip.1 0 (by norm_num), varint_roundtrip.1 127 (by norm_num),
    varint_roundtrip.1 128 (by norm_num), varint_roundtrip.1 (2 ^ 56 - 1) (by norm_num),
    varint_roundtrip.1 (2 ^ 64 - 1) (by norm_num),
    varint_roundtrip.2 (-2 ^ 63) (by norm_num) (by norm_num),
    varint_roundtrip.2 (2 ^ 63 - 1) (by norm_num) (by norm_num)⟩

/-- Skipping continuation bytes: the loop errors with `MalformedVarint`
when the terminating byte sits at overall index greater than 9, or at
index 9 with a value above 1. -/
theorem read_loop_malformed : ∀ (pre : List Nat) (x s i b : Nat) (post : List Nat),
    (∀ y ∈ pre, 0x80 ≤ y) → b < 0x80 →
    (9 < i + pre.length ∨ (i + pre.length = 9 ∧ 1 < b)) →
    read_uvarint_loop x s i (pre ++ b :: post) = .error .malformedVarint := by
  intro pre
  induction pre with
  | nil =>
    intro x s i b post hpre hb hcond
    simp only [List.nil_append, List.length_nil, Nat.add_zero] at hcond ⊢
    rw [read_uvarint_loop, if_pos hb, if_pos hcond]
  | cons y tl ih =>
    intro x s i b post hpre hb hcond
    have hy : 0x80 ≤ y := hpre y (by simp)
    rw [List.cons_append, read_uvarint_loop, if_neg (by omega)]
    apply ih _ _ _ _ _ (fun z hz => hpre z (by simp [hz])) hb
    simp at hcond ⊢
    omega

/-- Totality of `read_uvarint_loop`: with an accumulator below `2 ^ 64`
the loop either succeeds with a value below `2 ^ 64`, or fails with
end-of-input or a malformed varint. -/
theorem read_loop_trichotomy : ∀ (bs : List Nat) (x s i : Nat), x < 2 ^ 64 →
    (∃ u rest, read_uvarint_loop x s i bs = .ok (u, rest) ∧ u < 2 ^ 64)
    ∨ read_uvarint_loop x s i bs = .error .unexpectedEof
    ∨ read_uvarint_loop x s i bs = .error .malformedVarint := by
  intro bs
  induction bs with
  | nil =>
    intro x s i hx
    right
    left
    rw [read_uvarint_loop]
  | cons b tl ih =>
    intro x s i hx
    by_cases hb : b < 0x80
    · by_cases hg : 9 < i ∨ (i = 9 ∧ 1 < b)
      · right
        right
        rw [read_uvarint_loop, if_pos hb, if_pos hg]
      · left
        refine ⟨x ||| (b <<< s) % 2 ^ 64, tl, ?_, ?_⟩
        · rw [read_uvarint_loop, if_pos hb, if_neg hg]
        · exact Nat.or_lt_two_pow hx (Nat.mod_lt _ (by norm_num))
    · have := ih (x ||| ((b &&& 0x7f) <<< s) % 2 ^ 64) (s + 7) (i + 1)
        (Nat.or_lt_two_pow hx (Nat.mod_lt _ (by norm_num)))
      rw [read_uvarint_loop, if_neg hb]
      exact this

/-- C3: Overlong-varint rejection.  Whenever the terminating byte (the
first byte below `0x80`) arrives after more than 10 bytes have been
consumed (`pre.length > 9`), or as the 10th byte (`pre.length = 9`)
with value above 1, `read_uvarint` fails with `MalformedVarint`; and on
every input it either succeeds with a value below `2 ^ 64`, or fails
with `UnexpectedEndOfInput` or `MalformedVarint` — it never aborts any
other way. -/
theorem read_uvarint_overlong :
    (∀ (pre : List Nat) (b : Nat) (post : List Nat), (∀ y ∈ pre, 0x80 ≤ y) → b < 0x80 →
        (9 < pre.length ∨ (pre.length = 9 ∧ 1 < b)) →
        read_uvarint (pre ++ b :: post) = .error .malformedVarint)
    ∧ (∀ bs : List Nat,
        (∃ u rest, read_uvarint bs = .ok (u, rest) ∧ u < 2 ^ 64)
        ∨ read_uvarint bs = .error .unexpectedEof
        ∨ read_uvarint bs = .error .malformedVarint) := by
  constructor
  · intro pre b post hpre hb hcond
    apply read_loop_malformed pre 0 0 0 b post hpre hb
    simpa using hcond
  · intro bs
    exact read_loop_trichotomy bs 0 0 0 (by norm_num)

/-- C3 witness: an 11-byte varint is rejected, and a 10-byte varint
whose final byte is 2 is rejected. -/
theorem read_uvarint_overlong_witness :
    read_uvarint (List.replicate 10 0x80 ++ 0 :: []) = .error .malformedVarint
    ∧ read_uvarint (List.replicate 9 0x80 ++ 2 :: []) = .error .malformedVarint :=
  ⟨read_uvarint_overlong.1 (List.replicate 10 0x80) 0 [] (by decide) (by decide) (by decide),
    read_uvarint_overlong.1 (List.replicate 9 0x80) 2 [] (by decide) (by decide) (by decide)⟩

/-- C10: uvarint decoding is not injective below 10 bytes: the distinct
byte streams `[0x00]` and `[0x80, 0x00]` both decode to 0 — the second
is a non-canonical encoding that is accepted rather than rejected. -/
theorem read_uvarint_not_injective :
    read_uvarint [0x00] = .ok (0, [])
    ∧ read_uvarint [0x80, 0x00] = .ok (0, [])
    ∧ ([0x00] : List Nat) ≠ [0x80, 0x00] :=
  ⟨rfl, rfl, by decide⟩

/-- A Unicode scalar value: below 0x110000 and not a surrogate.  Rust
`char` (and hence every position of a `String`) holds exactly these. -/
def validScalar (c : Nat) : Bool :=
  decide (c < 0x110000) && !(decide (0xD800 ≤ c) && decide (c < 0xE000))

/-- Models the UTF-8 encoding of one scalar value.  Strings are
modelled as lists of scalar values; `Vec::from(s)` in the source yields
the UTF-8 bytes of the string, built from this per-scalar encoding. -/
def utf8EncodeChar (c : Nat) : List Nat :=
  if c < 0x80 then [c]
  else if c < 0x800 then [0xC0 + c / 64, 0x80 + c % 64]
  else if c < 0x10000 then [0xE0 + c / 4096, 0x80 + c / 64 % 64, 0x80 + c % 64]
  else [0xF0 + c / 262144, 0x80 + c / 4096 % 64, 0x80 + c / 64 % 64, 0x80 + c % 64]

/-- UTF-8 byte sequence of a string (list of scalar values). -/
def utf8Encode : List Nat → List Nat
  | [] => []
  | c :: cs => utf8EncodeChar c ++ utf8Encode cs

/-- Decodes one scalar from a lead byte `b` and the following bytes,
returning the scalar and how many bytes beyond the lead were consumed.
Invalid sequences yield the replacement character U+FFFD and consume
only the lead byte. -/
def utf8DecodeOne (b : Nat) (rest : List Nat) : Nat × Nat :=
  if b < 0x80 then (b, 0)
  else if b < 0xC2 then (0xFFFD, 0)
  else if b < 0xE0 then
    match rest with
    | b1 :: _ =>
      if 0x80 ≤ b1 ∧ b1 < 0xC0 then ((b - 0xC0) * 64 + (b1 - 0x80), 1) else (0xFFFD, 0)
    | [] => (0xFFFD, 0)
  else if b < 0xF0 then
    match rest with
    | b1 :: b2 :: _ =>
      if (0x80 ≤ b1 ∧ b1 < 0xC0) ∧ (0x80 ≤ b2 ∧ b2 < 0xC0)
          ∧ (b = 0xE0 → 0xA0 ≤ b1) ∧ (b = 0xED → b1 < 0xA0) then
        ((b - 0xE0) * 4096 + (b1 - 0x80) * 64 + (b2 - 0x80), 2)
      else (0xFFFD, 0)
    | _ => (0xFFFD, 0)
  else if b ≤ 0xF4 then
    match rest with
    | b1 :: b2 :: b3 :: _ =>
      if (0x80 ≤ b1 ∧ b1 < 0xC0) ∧ (0x80 ≤ b2 ∧ b2 < 0xC0) ∧ (0x80 ≤ b3 ∧ b3 < 0xC0)
          ∧ (b = 0xF0 → 0x90 ≤ b1) ∧ (b = 0xF4 → b1 < 0x90) then
        ((b - 0xF0) * 262144 + (b1 - 0x80) * 4096 + (b2 - 0x80) * 64 + (b3 - 0x80), 3)
      else (0xFFFD, 0)
    | _ => (0xFFFD, 0)
  else (0xFFFD, 0)

/-- Models `String::from_utf8_lossy` from the Rust standard library,
which the spec describes as replacing any byte sequence that is not
valid UTF-8 with the replacement character U+FFFD.  On valid UTF-8 this
decodes exactly; on invalid input this model consumes one byte per
replacement (the std policy differs only in how many bytes an invalid
sequence consumes, which no property here exercises). -/
def utf8DecodeLossy : List Nat → List Nat
  | [] => []
  | b :: rest =>
    (utf8DecodeOne b rest).1 :: utf8DecodeLossy (rest.drop (utf8DecodeOne b rest).2)
termination_by bs => bs.length
decreasing_by simp; omega

/-- One-step equation of `utf8DecodeLossy` on a non-empty stream. -/
theorem utf8DecodeLossy_cons (b : Nat) (rest : List Nat) :
    utf8DecodeLossy (b :: rest) =
      (utf8DecodeOne b rest).1 :: utf8DecodeLossy (rest.drop (utf8DecodeOne b rest).2) := by
  rw [utf8DecodeLossy]

/-- Lossy UTF-8 decoding inverts the encoding of a valid scalar and
continues with the remaining bytes. -/
theorem utf8DecodeLossy_encodeChar (c : Nat) (hc : validScalar c = true) (rest : List Nat) :
    utf8DecodeLossy (utf8EncodeChar c ++ rest) = c :: utf8DecodeLossy rest := by
  have hc2 : c < 0x110000 ∧ (c < 0xD800 ∨ 0xE000 ≤ c) := by
    simp only [validScalar, Bool.and_eq_true, Bool.not_eq_true', Bool.and_eq_false_iff,
      decide_eq_true_eq, decide_eq_false_iff_not, not_le, not_lt] at hc
    omega
  unfold utf8EncodeChar
  by_cases h1 : c < 0x80
  · rw [if_pos h1]
    simp only [List.cons_append, List.nil_append]
    rw [utf8DecodeLossy_cons]
    have hone : utf8DecodeOne c rest = (c, 0) := by
      unfold utf8DecodeOne
      rw [if_pos h1]
    rw [hone]
    simp
  · rw [if_neg h1]
    by_cases h2 : c < 0x800
    · rw [if_pos h2]
      simp only [List.cons_append, List.nil_append]
      rw [utf8DecodeLossy_cons]
      have hone : utf8DecodeOne (192 + c / 64) ((128 + c % 64) :: rest) = (c, 1) := by
        unfold utf8DecodeOne
        rw [if_neg (by omega), if_neg (by omega), if_pos (by omega)]
        simp only []
        rw [if_pos (by omega)]
        simp only [Prod.mk.injEq, and_true]
        omega
      rw [hone]
      simp
    · rw [if_neg h2]
      by_cases h3 : c < 0x10000
      · rw [if_pos h3]
        simp only [List.cons_append, List.nil_append]
        rw [utf8DecodeLossy_cons]
        have hone : utf8DecodeOne (224 + c / 4096)
            ((128 + c / 64 % 64) :: (128 + c % 64) :: rest) = (c, 2) := by
          unfold utf8DecodeOne
          rw [if_neg (by omega), if_neg (by omega), if_neg (by omega), if_pos (by omega)]
          simp only []
          rw [if_pos (by omega)]
          simp only [Prod.mk.injEq, and_true]
          omega
        rw [hone]
        simp
      · rw [if_neg h3]
        simp only [List.cons_append, List.nil_append]
        rw [utf8DecodeLossy_cons]
        have hone : utf8DecodeOne (240 + c / 262144)
            ((128 + c / 4096 % 64) :: (128 + c / 64 % 64) :: (128 + c % 64) :: rest) = (c, 3) := by
          unfold utf8DecodeOne
          rw [if_neg (by omega), if_neg (by omega), if_neg (by omega), if_neg (by omega),
            if_pos (by omega)]
          simp only []
          rw [if_pos (by omega)]
          simp only [Prod.mk.injEq, and_true]
          omega
        rw [hone]
        simp

/-- Lossy UTF-8 decoding inverts the encoding of a valid string and
continues with the remaining bytes. -/
theorem utf8DecodeLossy_encode (s : List Nat) (h : ∀ c ∈ s, validScalar c = true)
    (rest : List Nat) :
    utf8DecodeLossy (utf8Encode s ++ rest) = s ++ utf8DecodeLossy rest := by
  induction s with
  | nil => simp [utf8Encode]
  | cons c cs ih =>
    rw [utf8Encode, List.append_assoc,
      utf8DecodeLossy_encodeChar c (h c (by simp)) (utf8Encode cs ++ rest),
      ih (fun x hx => h x (by simp [hx]))]
    rfl

/-- Models `write_sized` from src/codec.rs: the length as a uvarint
followed by the raw bytes.  The sink never fails in the model. -/
def write_sized (buf : List Nat) : List Nat := write_uvarint buf.length ++ buf

/-- Models `read_sized` from src/codec.rs: read a uvarint length, then
exactly that many bytes, failing like `read_exact` when fewer remain.
The `println!` diagnostic in the source is an implementation artifact
the spec excludes from the contract, and is not modelled. -/
def read_sized (bs : List Nat) : Except IOErr (List Nat × List Nat) :=
  match read_uvarint bs with
  | .error e => .error e
  | .ok (sz, rest) =>
    if sz ≤ rest.length then .ok (rest.take sz, rest.drop sz)
    else .error .unexpectedEof

/-- Fact: `read_sized` consumes at least one byte on success. -/
theorem read_sized_consumes {bs : List Nat} {buf rest : List Nat}
    (h : read_sized bs = .ok (buf, rest)) : rest.length < bs.length := by
  unfold read_sized at h
  split at h
  · exact absurd h (by simp)
  · rename_i sz rest0 heq
    split at h
    · simp at h
      have h1 := read_uvarint_consumes heq
      have h2 : rest.length ≤ rest0.length := by
        rw [← h.2]
        simp
      omega
    · exact absurd h (by simp)

/-- Reading a freshly written sized payload returns the bytes verbatim
and leaves trailing bytes untouched. -/
theorem read_write_sized (buf : List Nat) (hlen : buf.length < 2 ^ 64) (rest : List Nat) :
    read_sized (write_sized buf ++ rest) = .ok (buf, rest) := by
  unfold write_sized read_sized
  rw [List.append_assoc, read_write_uvarint buf.length hlen (buf ++ rest)]
  simp only []
  rw [if_pos (by simp)]
  rw [List.take_left, List.drop_left]

/-- Fact: `read_sized` bundled with the fact that it consumes at least one
byte, for termination of the recursive readers. -/
def readSized (bs : List Nat) :
    Except IOErr (List Nat × { rest : List Nat // rest.length < bs.length }) :=
  match h : read_sized bs with
  | .error e => .error e
  | .ok (buf, rest) => .ok (buf, ⟨rest, read_sized_consumes h⟩)

/-- Fact: `read_sized` is `readSized` with the length certificate stripped. -/
theorem readSized_val (bs : List Nat) :
    read_sized bs = (readSized bs).map (fun p => (p.1, p.2.val)) := by
  rw [readSized]
  split
  · rename_i e heq
    exact heq
  · rename_i buf rest heq
    exact heq

/-- Type tag byte TYPE_INT from src/codec.rs: ASCII i. -/
@[simp] def TYPE_INT : Nat := 105

/-- Type tag byte TYPE_UINT from src/codec.rs: ASCII u. -/
@[simp] def TYPE_UINT : Nat := 117

/-- Type tag byte TYPE_FLOAT from src/codec.rs: ASCII f. -/
@[simp] def TYPE_FLOAT : Nat := 102

/-- Type tag byte TYPE_BYTES from src/codec.rs: ASCII b. -/
@[simp] def TYPE_BYTES : Nat := 98

/-- Type tag byte TYPE_STRING from src/codec.rs: ASCII s. -/
@[simp] def TYPE_STRING : Nat := 115

/-- Type tag byte TYPE_LIST from src/codec.rs: ASCII l. -/
@[simp] def TYPE_LIST : Nat := 108

/-- Type tag byte TYPE_MAP from src/codec.rs: ASCII m. -/
@[simp] def TYPE_MAP : Nat := 109

/-- CONTAINER_CAPACITY from src/codec.rs. -/
@[simp] def CONTAINER_CAPACITY : Nat := 255

/-- Models the `Typed` enum from src/codec.rs.  `f64` is modelled by
its IEEE-754 bit pattern (`f64::to_bits`), `String` by its list of
Unicode scalar values, `Vec<u8>` by a list of byte values, and the
string-keyed `HashMap` by an association list (the iteration order of
`HashMap` is unspecified in the source; the model fixes the list
order). -/
inductive Typed where
  | int (n : Int)
  | uint (un : Nat)
  | float (bits : Nat)
  | bytes (buf : List Nat)
  | str (s : List Nat)
  | list (l : List Typed)
  | map (m : List (List Nat × Typed))
deriving Repr

/-- Lookup in the association-list model of `HashMap`. -/
def mapFind? : List (List Nat × Typed) → List Nat → Option Typed
  | [], _ => none
  | (k2, v) :: rest, k => if k2 = k then some v else mapFind? rest k

/-- Models `HashMap::insert`: overwrite the value of an existing key in
place, otherwise append the new binding. -/
def mapInsert : List (List Nat × Typed) → List Nat → Typed → List (List Nat × Typed)
  | [], k, v => [(k, v)]
  | (k2, v2) :: rest, k, v =>
    if k2 = k then (k, v) :: rest else (k2, v2) :: mapInsert rest k v

/-- Keys of the association list are pairwise distinct, as `HashMap`
guarantees by construction. -/
def keysUnique : List (List Nat × Typed) → Bool
  | [] => true
  | (k, _) :: rest => (mapFind? rest k).isNone && keysUnique rest

mutual
/-- Constructibility of a value in the Rust types, together with the
container bound of the specified round-trip property: `i64`/`u64`
ranges, byte values below 256, strings made of Unicode scalar values,
containers with at most 254 elements/entries, map keys valid and
pairwise distinct, and in-memory lengths small enough that a length
prefix fits a `u64`. -/
def wf : Typed → Bool
  | .int n => decide (-2 ^ 63 ≤ n) && decide (n < 2 ^ 63)
  | .uint un => decide (un < 2 ^ 64)
  | .float bits => decide (bits < 2 ^ 64)
  | .bytes buf => decide (buf.length < 2 ^ 64) && buf.all (fun b => decide (b < 256))
  | .str s => decide (s.length < 2 ^ 62) && s.all validScalar
  | .list l => decide (l.length ≤ 254) && wfElems l
  | .map m => decide (m.length ≤ 254) && keysUnique m && wfPairs m

/-- Fact: `wf` for every element of a list. -/
def wfElems : List Typed → Bool
  | [] => true
  | e :: es => wf e && wfElems es

/-- Fact: `wf` for every entry of a map: valid keys and `wf` values. -/
def wfPairs : List (List Nat × Typed) → Bool
  | [] => true
  | (k, v) :: rest => (decide (k.length < 2 ^ 62) && k.all validScalar) && wf v && wfPairs rest
end

mutual
/-- Models `write_typed` from src/codec.rs: a tag byte followed by the
payload encoding.  For `List` and `Map` the bodies of `write_list` and
`write_map` are inlined (`write_typed_list` and `write_typed_map`
below connect them to the standalone functions); as in the source, the
capacity check precedes any byte emission. -/
def write_typed : Typed → Except IOErr (List Nat)
  | .int n => .ok (TYPE_INT :: write_varint n)
  | .uint un => .ok (TYPE_UINT :: write_uvarint un)
  | .float bits => .ok (TYPE_FLOAT :: write_uvarint bits)
  | .bytes buf => .ok (TYPE_BYTES :: write_sized buf)
  | .str s => .ok (TYPE_STRING :: write_sized (utf8Encode s))
  | .list l =>
    if CONTAINER_CAPACITY ≤ l.length then .error .containerTooLarge
    else
      match write_elems l with
      | .error e => .error e
      | .ok body => .ok (TYPE_LIST :: l.length :: body)
  | .map m =>
    if CONTAINER_CAPACITY ≤ m.length then .error .containerTooLarge
    else
      match write_pairs m with
      | .error e => .error e
      | .ok body => .ok (TYPE_MAP :: m.length :: body)

/-- The element loop of `write_list`: each element in order. -/
def write_elems : List Typed → Except IOErr (List Nat)
  | [] => .ok []
  | e :: es =>
    match write_typed e with
    | .error e2 => .error e2
    | .ok bs =>
      match write_elems es with
      | .error e2 => .error e2
      | .ok rest => .ok (bs ++ rest)

/-- The entry loop of `write_map`: each entry is the sized UTF-8 key
followed by the value encoding. -/
def write_pairs : List (List Nat × Typed) → Except IOErr (List Nat)
  | [] => .ok []
  | (k, v) :: rest =>
    match write_typed v with
    | .error e2 => .error e2
    | .ok bs =>
      match write_pairs rest with
      | .error e2 => .error e2
      | .ok bs2 => .ok (write_sized (utf8Encode k) ++ (bs ++ bs2))
end

/-- Models `write_list` from src/codec.rs: fail with the container-size
error when there are `CONTAINER_CAPACITY` (255) or more elements —
before emitting anything — else emit the count byte followed by every
element. -/
def write_list (l : List Typed) : Except IOErr (List Nat) :=
  if CONTAINER_CAPACITY ≤ l.length then .error .containerTooLarge
  else
    match write_elems l with
    | .error e => .error e
    | .ok body => .ok (l.length :: body)

/-- Models `write_map` from src/codec.rs: as `write_list`, with sized
keys preceding each value. -/
def write_map (m : List (List Nat × Typed)) : Except IOErr (List Nat) :=
  if CONTAINER_CAPACITY ≤ m.length then .error .containerTooLarge
  else
    match write_pairs m with
    | .error e => .error e
    | .ok body => .ok (m.length :: body)

/-- Fact: `write_typed` on a list is the tag byte before `write_list`. -/
theorem write_typed_list (l : List Typed) :
    write_typed (.list l) = (write_list l).map (fun bs => TYPE_LIST :: bs) := by
  simp only [write_typed, write_list]
  split
  · rfl
  · split <;> rfl

/-- Fact: `write_typed` on a map is the tag byte before `write_map`. -/
theorem write_typed_map (m : List (List Nat × Typed)) :
    write_typed (.map m) = (write_map m).map (fun bs => TYPE_MAP :: bs) := by
  simp only [write_typed, write_map]
  split
  · rfl
  · split <;> rfl

mutual
/-- Models `read_typed` from src/codec.rs: read the tag byte (failing
on exhausted input like `read_u8`) and dispatch on it; any
unrecognized tag fails with the tag byte in the error.  The remainder
is bundled with the fact that at least one byte was consumed, which
grounds termination of the mutual recursion. -/
def readTyped : (bs : List Nat) →
    Except IOErr (Typed × { rest : List Nat // rest.length < bs.length })
  | [] => .error .unexpectedEof
  | t :: bs1 =>
    if t = TYPE_INT then
      match h : read_varint bs1 with
      | .error e => .error e
      | .ok (n, rest) => .ok (.int n, ⟨rest, by have := read_varint_consumes h; simp; omega⟩)
    else if t = TYPE_UINT then
      match h : read_uvarint bs1 with
      | .error e => .error e
      | .ok (un, rest) => .ok (.uint un, ⟨rest, by have := read_uvarint_consumes h; simp; omega⟩)
    else if t = TYPE_FLOAT then
      match h : read_uvarint bs1 with
      | .error e => .error e
      | .ok (un, rest) =>
        .ok (.float un, ⟨rest, by have := read_uvarint_consumes h; simp; omega⟩)
    else if t = TYPE_BYTES then
      match readSized bs1 with
      | .error e => .error e
      | .ok (buf, ⟨rest, hr⟩) => .ok (.bytes buf, ⟨rest, by simp; omega⟩)
    else if t = TYPE_STRING then
      match readSized bs1 with
      | .error e => .error e
      | .ok (buf, ⟨rest, hr⟩) => .ok (.str (utf8DecodeLossy buf), ⟨rest, by simp; omega⟩)
    else if t = TYPE_LIST then
      match readList bs1 with
      | .error e => .error e
      | .ok (l, ⟨rest, hr⟩) => .ok (.list l, ⟨rest, by simp; omega⟩)
    else if t = TYPE_MAP then
      match readMap bs1 with
      | .error e => .error e
      | .ok (m, ⟨rest, hr⟩) => .ok (.map m, ⟨rest, by simp; omega⟩)
    else .error (.unknownTypeTag t)
termination_by bs => (bs.length, 0)

/-- Models `read_list` from src/codec.rs: read the count byte, return
the empty list at count zero, else read that many elements. -/
def readList : (bs : List Nat) →
    Except IOErr (List Typed × { rest : List Nat // rest.length < bs.length })
  | [] => .error .unexpectedEof
  | nelem :: bs1 =>
    if nelem = 0 then .ok ([], ⟨bs1, by simp⟩)
    else
      match readListLoop nelem bs1 with
      | .error e => .error e
      | .ok (l, ⟨rest, hr⟩) => .ok (l, ⟨rest, by simp; omega⟩)
termination_by bs => (bs.length, 1)

/-- The element loop of `read_list`: `n` values in order. -/
def readListLoop : (n : Nat) → (bs : List Nat) →
    Except IOErr (List Typed × { rest : List Nat // rest.length ≤ bs.length })
  | 0, bs => .ok ([], ⟨bs, Nat.le_refl _⟩)
  | n + 1, bs =>
    match readTyped bs with
    | .error e => .error e
    | .ok (e, ⟨rest, hr⟩) =>
      match readListLoop n rest with
      | .error e2 => .error e2
      | .ok (l, ⟨rest2, hr2⟩) => .ok (e :: l, ⟨rest2, by omega⟩)
termination_by n bs => (bs.length, 2)

/-- Models `read_map` from src/codec.rs: read the count byte, return
the empty map at count zero, else read that many entries into a map
that starts empty. -/
def readMap : (bs : List Nat) →
    Except IOErr (List (List Nat × Typed) × { rest : List Nat // rest.length < bs.length })
  | [] => .error .unexpectedEof
  | nelem :: bs1 =>
    if nelem = 0 then .ok ([], ⟨bs1, by simp⟩)
    else
      match readMapLoop nelem [] bs1 with
      | .error e => .error e
      | .ok (m, ⟨rest, hr⟩) => .ok (m, ⟨rest, by simp; omega⟩)
termination_by bs => (bs.length, 1)

/-- The entry loop of `read_map`: `n` times, read a sized key, decode
it lossily, read the value, and insert the binding (overwriting any
previous binding of the same key). -/
def readMapLoop : (n : Nat) → (m : List (List Nat × Typed)) → (bs : List Nat) →
    Except IOErr (List (List Nat × Typed) × { rest : List Nat // rest.length ≤ bs.length })
  | 0, m, bs => .ok (m, ⟨bs, Nat.le_refl _⟩)
  | n + 1, m, bs =>
    match readSized bs with
    | .error e => .error e
    | .ok (kb, ⟨r1, hr1⟩) =>
      match readTyped r1 with
      | .error e2 => .error e2
      | .ok (v, ⟨r2, hr2⟩) =>
        match readMapLoop n (mapInsert m (utf8DecodeLossy kb) v) r2 with
        | .error e3 => .error e3
        | .ok (m2, ⟨rest, hrest⟩) => .ok (m2, ⟨rest, by omega⟩)
termination_by n m bs => (bs.length, 2)
end

/-- Models `read_typed` from src/codec.rs, with the termination bundle
of `readTyped` stripped. -/
def read_typed (bs : List Nat) : Except IOErr (Typed × List Nat) :=
  match readTyped bs with
  | .error e => .error e
  | .ok (v, rest) => .ok (v, rest.val)

/-- Models `read_list` from src/codec.rs, with the termination bundle
of `readList` stripped. -/
def read_list (bs : List Nat) : Except IOErr (List Typed × List Nat) :=
  match readList bs with
  | .error e => .error e
  | .ok (l, rest) => .ok (l, rest.val)

/-- The element loop of `read_list`, bundle stripped. -/
def read_list_loop (n : Nat) (bs : List Nat) : Except IOErr (List Typed × List Nat) :=
  match readListLoop n bs with
  | .error e => .error e
  | .ok (l, rest) => .ok (l, rest.val)

/-- Models `read_map` from src/codec.rs, with the termination bundle
of `readMap` stripped. -/
def read_map (bs : List Nat) : Except IOErr (List (List Nat × Typed) × List Nat) :=
  match readMap bs with
  | .error e => .error e
  | .ok (m, rest) => .ok (m, rest.val)

/-- The entry loop of `read_map`, bundle stripped. -/
def read_map_loop (n : Nat) (m : List (List Nat × Typed)) (bs : List Nat) :
    Except IOErr (List (List Nat × Typed) × List Nat) :=
  match readMapLoop n m bs with
  | .error e => .error e
  | .ok (m2, rest) => .ok (m2, rest.val)

/-- Fact: `read_typed` on an exhausted source. -/
theorem read_typed_nil : read_typed [] = .error .unexpectedEof := by
  rw [read_typed, readTyped]

/-- Fact: `read_typed` step for the Int tag. -/
theorem read_typed_int (bs : List Nat) :
    read_typed (TYPE_INT :: bs) = (read_varint bs).map (fun p => (Typed.int p.1, p.2)) := by
  rw [read_typed, readTyped, if_pos rfl]
  split
  · rename_i e heq
    split at heq
    · rename_i e2 heq2
      simp_all [Except.map]
    · rename_i v2 rest2 heq2
      simp_all
  · rename_i v rest heq
    split at heq
    · rename_i e2 heq2
      simp_all
    · rename_i v2 rest2 heq2
      simp_all [Except.map]
      exact (congrArg Subtype.val heq.2).symm

/-- Fact: `read_typed` step for the Uint tag. -/
theorem read_typed_uint (bs : List Nat) :
    read_typed (TYPE_UINT :: bs) = (read_uvarint bs).map (fun p => (Typed.uint p.1, p.2)) := by
  rw [read_typed, readTyped, if_neg (by decide), if_pos rfl]
  split
  · rename_i e heq
    split at heq
    · rename_i e2 heq2
      simp_all [Except.map]
    · rename_i v2 rest2 heq2
      simp_all
  · rename_i v rest heq
    split at heq
    · rename_i e2 heq2
      simp_all
    · rename_i v2 rest2 heq2
      simp_all [Except.map]
      exact (congrArg Subtype.val heq.2).symm

/-- Fact: `read_typed` step for the Float tag: the decoded bit pattern is the uvarint value, as in `f64::from_bits`. -/
theorem read_typed_float (bs : List Nat) :
    read_typed (TYPE_FLOAT :: bs) = (read_uvarint bs).map (fun p => (Typed.float p.1, p.2)) := by
  rw [read_typed, readTyped, if_neg (by decide), if_neg (by decide), if_pos rfl]
  split
  · rename_i e heq
    split at heq
    · rename_i e2 heq2
      simp_all [Except.map]
    · rename_i v2 rest2 heq2
      simp_all
  · rename_i v rest heq
    split at heq
    · rename_i e2 heq2
      simp_all
    · rename_i v2 rest2 heq2
      simp_all [Except.map]
      exact (congrArg Subtype.val heq.2).symm

/-- Fact: `read_typed` step for the Bytes tag. -/
theorem read_typed_bytes (bs : List Nat) :
    read_typed (TYPE_BYTES :: bs) = (read_sized bs).map (fun p => (Typed.bytes p.1, p.2)) := by
  rw [readSized_val]
  cases h : readSized bs with
  | error e =>
    rw [read_typed, readTyped, if_neg (by decide), if_neg (by decide), if_neg (by decide),
      if_pos rfl]
    simp [h, Except.map]
  | ok p =>
    obtain ⟨buf, rest, hr⟩ := p
    rw [read_typed, readTyped, if_neg (by decide), if_neg (by decide), if_neg (by decide),
      if_pos rfl]
    simp [h, Except.map]

/-- Fact: `read_typed` step for the String tag: the sized payload decoded
lossily. -/
theorem read_typed_str (bs : List Nat) :
    read_typed (TYPE_STRING :: bs)
      = (read_sized bs).map (fun p => (Typed.str (utf8DecodeLossy p.1), p.2)) := by
  rw [readSized_val]
  cases h : readSized bs with
  | error e =>
    rw [read_typed, readTyped, if_neg (by decide), if_neg (by decide), if_neg (by decide),
      if_neg (by decide), if_pos rfl]
    simp [h, Except.map]
  | ok p =>
    obtain ⟨buf, rest, hr⟩ := p
    rw [read_typed, readTyped, if_neg (by decide), if_neg (by decide), if_neg (by decide),
      if_neg (by decide), if_pos rfl]
    simp [h, Except.map]

/-- Fact: `read_typed` step for the List tag. -/
theorem read_typed_list (bs : List Nat) :
    read_typed (TYPE_LIST :: bs) = (read_list bs).map (fun p => (Typed.list p.1, p.2)) := by
  cases h : readList bs with
  | error e =>
    rw [read_typed, readTyped, if_neg (by decide), if_neg (by decide), if_neg (by decide),
      if_neg (by decide), if_neg (by decide), if_pos rfl, read_list]
    simp [h, Except.map]
  | ok p =>
    obtain ⟨l, rest, hr⟩ := p
    rw [read_typed, readTyped, if_neg (by decide), if_neg (by decide), if_neg (by decide),
      if_neg (by decide), if_neg (by decide), if_pos rfl, read_list]
    simp [h, Except.map]

/-- Fact: `read_typed` step for the Map tag. -/
theorem read_typed_map (bs : List Nat) :
    read_typed (TYPE_MAP :: bs) = (read_map bs).map (fun p => (Typed.map p.1, p.2)) := by
  cases h : readMap bs with
  | error e =>
    rw [read_typed, readTyped, if_neg (by decide), if_neg (by decide), if_neg (by decide),
      if_neg (by decide), if_neg (by decide), if_neg (by decide), if_pos rfl, read_map]
    simp [h, Except.map]
  | ok p =>
    obtain ⟨m, rest, hr⟩ := p
    rw [read_typed, readTyped, if_neg (by decide), if_neg (by decide), if_neg (by decide),
      if_neg (by decide), if_neg (by decide), if_neg (by decide), if_pos rfl, read_map]
    simp [h, Except.map]

/-- Fact: `read_typed` step for an unrecognized tag byte: the error carries
the offending byte. -/
theorem read_typed_unknown (t : Nat) (bs : List Nat)
    (h : t ≠ TYPE_INT ∧ t ≠ TYPE_UINT ∧ t ≠ TYPE_FLOAT ∧ t ≠ TYPE_BYTES ∧ t ≠ TYPE_STRING
      ∧ t ≠ TYPE_LIST ∧ t ≠ TYPE_MAP) :
    read_typed (t :: bs) = .error (.unknownTypeTag t) := by
  rw [read_typed, readTyped]
  rw [if_neg h.1, if_neg h.2.1, if_neg h.2.2.1, if_neg h.2.2.2.1, if_neg h.2.2.2.2.1,
    if_neg h.2.2.2.2.2.1, if_neg h.2.2.2.2.2.2]

/-- Fact: `read_list` on an exhausted source. -/
theorem read_list_nil : read_list [] = .error .unexpectedEof := by
  rw [read_list, readList]

/-- Fact: `read_list` step: consume the count byte and run the element loop
(at count zero this is the immediate empty return of the source). -/
theorem read_list_cons (n : Nat) (bs : List Nat) :
    read_list (n :: bs) = read_list_loop n bs := by
  rw [read_list, readList]
  by_cases hn : n = 0
  · subst hn
    rw [if_pos rfl, read_list_loop, readListLoop]
  · rw [if_neg hn, read_list_loop]
    cases h : readListLoop n bs with
    | error e => simp [h]
    | ok p =>
      obtain ⟨l, rest, hr⟩ := p
      simp [h]

/-- The list loop at count zero. -/
theorem read_list_loop_zero (bs : List Nat) : read_list_loop 0 bs = .ok ([], bs) := by
  rw [read_list_loop, readListLoop]

/-- The list loop step: one element, then the remaining ones. -/
theorem read_list_loop_succ (n : Nat) (bs : List Nat) :
    read_list_loop (n + 1) bs =
      match read_typed bs with
      | .error e => .error e
      | .ok (e, rest) =>
        match read_list_loop n rest with
        | .error e2 => .error e2
        | .ok (l, rest2) => .ok (e :: l, rest2) := by
  rw [read_list_loop, readListLoop, read_typed]
  cases h : readTyped bs with
  | error e => simp [h]
  | ok p =>
    obtain ⟨e, rest, hr⟩ := p
    simp only [h]
    rw [read_list_loop]
    cases h2 : readListLoop n rest with
    | error e2 => simp [h2]
    | ok p2 =>
      obtain ⟨l, rest2, hr2⟩ := p2
      simp [h2]

/-- Fact: `read_map` on an exhausted source. -/
theorem read_map_nil : read_map [] = .error .unexpectedEof := by
  rw [read_map, readMap]

/-- Fact: `read_map` step: consume the count byte and run the entry loop from
the empty map (at count zero this is the immediate empty return). -/
theorem read_map_cons (n : Nat) (bs : List Nat) :
    read_map (n :: bs) = read_map_loop n [] bs := by
  rw [read_map, readMap]
  by_cases hn : n = 0
  · subst hn
    rw [if_pos rfl, read_map_loop, readMapLoop]
  · rw [if_neg hn, read_map_loop]
    cases h : readMapLoop n [] bs with
    | error e => simp [h]
    | ok p =>
      obtain ⟨m, rest, hr⟩ := p
      simp [h]

/-- The map loop at count zero. -/
theorem read_map_loop_zero (m : List (List Nat × Typed)) (bs : List Nat) :
    read_map_loop 0 m bs = .ok (m, bs) := by
  rw [read_map_loop, readMapLoop]

/-- The map loop step: a sized key decoded lossily, a value, the
insertion, then the remaining entries. -/
theorem read_map_loop_succ (n : Nat) (m : List (List Nat × Typed)) (bs : List Nat) :
    read_map_loop (n + 1) m bs =
      match read_sized bs with
      | .error e => .error e
      | .ok (kb, r1) =>
        match read_typed r1 with
        | .error e2 => .error e2
        | .ok (v, r2) => read_map_loop n (mapInsert m (utf8DecodeLossy kb) v) r2 := by
  rw [readSized_val]
  cases h : readSized bs with
  | error e =>
    rw [read_map_loop, readMapLoop]
    simp [h, Except.map]
  | ok p =>
    obtain ⟨kb, r1, hr1⟩ := p
    rw [read_map_loop, readMapLoop]
    simp only [h, Except.map]
    rw [read_typed]
    cases h2 : readTyped r1 with
    | error e2 => simp [h2]
    | ok p2 =>
      obtain ⟨v, r2, hr2⟩ := p2
      simp only [h2]
      rw [read_map_loop]
      cases h3 : readMapLoop n (mapInsert m (utf8DecodeLossy kb) v) r2 with
      | error e3 => simp [h3]
      | ok p3 =>
        obtain ⟨m2, rest, hrest⟩ := p3
        simp [h3]

/-- Characterization of a failed lookup: no entry has the key. -/
theorem mapFind?_none_iff (m : List (List Nat × Typed)) (k : List Nat) :
    mapFind? m k = none ↔ ∀ p ∈ m, p.1 ≠ k := by
  induction m with
  | nil => simp [mapFind?]
  | cons p tl ih =>
    obtain ⟨k2, v⟩ := p
    rw [mapFind?]
    by_cases hk : k2 = k
    · subst hk
      simp
    · simp [hk, ih]

/-- A lookup skips a prefix that does not contain the key. -/
theorem mapFind?_append_of_none (acc m2 : List (List Nat × Typed)) (k : List Nat)
    (h : mapFind? acc k = none) : mapFind? (acc ++ m2) k = mapFind? m2 k := by
  induction acc with
  | nil => simp
  | cons p tl ih =>
    obtain ⟨k2, v⟩ := p
    rw [mapFind?] at h
    rw [List.cons_append, mapFind?]
    by_cases hk : k2 = k
    · rw [if_pos hk] at h
      exact absurd h (by simp)
    · rw [if_neg hk] at h ⊢
      exact ih h

/-- Inserting a fresh key appends the binding. -/
theorem mapInsert_of_none (m : List (List Nat × Typed)) (k : List Nat) (v : Typed)
    (h : mapFind? m k = none) : mapInsert m k v = m ++ [(k, v)] := by
  induction m with
  | nil => rw [mapInsert]; rfl
  | cons p tl ih =>
    obtain ⟨k2, v2⟩ := p
    rw [mapFind?] at h
    rw [mapInsert]
    by_cases hk : k2 = k
    · rw [if_pos hk] at h
      exact absurd h (by simp)
    · rw [if_neg hk] at h ⊢
      rw [ih h]
      rfl

/-- A UTF-8 encoded scalar takes at most four bytes. -/
theorem utf8EncodeChar_length (c : Nat) : (utf8EncodeChar c).length ≤ 4 := by
  unfold utf8EncodeChar
  split
  · simp
  · split
    · simp
    · split <;> simp

/-- The UTF-8 encoding of a string takes at most four bytes per
scalar. -/
theorem utf8Encode_length (s : List Nat) : (utf8Encode s).length ≤ 4 * s.length := by
  induction s with
  | nil => simp [utf8Encode]
  | cons c cs ih =>
    rw [utf8Encode]
    have := utf8EncodeChar_length c
    simp only [List.length_append, List.length_cons]
    omega

/-- Lossy decoding of the empty byte stream. -/
theorem utf8DecodeLossy_nil : utf8DecodeLossy [] = [] := by
  rw [utf8DecodeLossy]

/-- Lossy UTF-8 decoding inverts the encoding of a valid string. -/
theorem utf8DecodeLossy_encode_nil (s : List Nat) (h : ∀ c ∈ s, validScalar c = true) :
    utf8DecodeLossy (utf8Encode s) = s := by
  have := utf8DecodeLossy_encode s h []
  simpa [utf8DecodeLossy_nil] using this

/-- The round-trip property of a single value: writing succeeds and
reading the written bytes back in front of any continuation returns
the value and the continuation. -/
def RT (v : Typed) : Prop :=
  ∀ rest, ∃ bs, write_typed v = .ok bs ∧ read_typed (bs ++ rest) = .ok (v, rest)

/-- The element loop round-trip: writing every element of a list and
reading them back with the list length as count. -/
theorem elems_roundtrip : ∀ (l : List Typed), (∀ e ∈ l, wf e = true → RT e) →
    wfElems l = true → ∀ rest, ∃ body, write_elems l = .ok body ∧
      read_list_loop l.length (body ++ rest) = .ok (l, rest) := by
  intro l
  induction l with
  | nil =>
    intro _ _ rest
    refine ⟨[], rfl, ?_⟩
    simp [read_list_loop_zero]
  | cons e es ih =>
    intro hRT hwf rest
    have hwf2 : wf e = true ∧ wfElems es = true := by
      rw [wfElems] at hwf
      simpa using hwf
    obtain ⟨body2, hw2, hr2⟩ := ih (fun x hx => hRT x (by simp [hx])) hwf2.2 rest
    obtain ⟨bse, hwe, hre⟩ := hRT e (by simp) hwf2.1 (body2 ++ rest)
    refine ⟨bse ++ body2, ?_, ?_⟩
    · rw [write_elems, hwe, hw2]
    · rw [List.length_cons, read_list_loop_succ, List.append_assoc, hre]
      simp only []
      rw [hr2]

/-- The entry loop round-trip: writing every entry of a map whose keys
are fresh for the accumulator and reading them back appends the
entries to the accumulator. -/
theorem pairs_roundtrip : ∀ (m : List (List Nat × Typed)),
    (∀ p ∈ m, wf p.2 = true → RT p.2) → wfPairs m = true → keysUnique m = true →
    ∀ (acc : List (List Nat × Typed)) (rest : List Nat),
      (∀ p ∈ m, mapFind? acc p.1 = none) →
      ∃ body, write_pairs m = .ok body ∧
        read_map_loop m.length acc (body ++ rest) = .ok (acc ++ m, rest) := by
  intro m
  induction m with
  | nil =>
    intro _ _ _ acc rest _
    refine ⟨[], rfl, ?_⟩
    simp [read_map_loop_zero]
  | cons p tl ih =>
    obtain ⟨k, v⟩ := p
    intro hRT hwf huniq acc rest hdisj
    have hwf2 : ((k.length < 2 ^ 62 ∧ ∀ x ∈ k, validScalar x = true) ∧ wf v = true)
        ∧ wfPairs tl = true := by
      rw [wfPairs] at hwf
      simpa [List.all_eq_true] using hwf
    have huq2 : mapFind? tl k = none ∧ keysUnique tl = true := by
      rw [keysUnique] at huniq
      simpa [Option.isNone_iff_eq_none] using huniq
    have hfresh : mapFind? acc k = none := hdisj (k, v) (by simp)
    have hacc2 : mapInsert acc k v = acc ++ [(k, v)] := mapInsert_of_none acc k v hfresh
    have hdisj2 : ∀ p ∈ tl, mapFind? (acc ++ [(k, v)]) p.1 = none := by
      intro p hp
      have h1 : mapFind? acc p.1 = none := hdisj p (by simp [hp])
      have h2 : p.1 ≠ k := (mapFind?_none_iff tl k).mp huq2.1 p hp
      rw [mapFind?_append_of_none acc _ _ h1, mapFind?]
      rw [if_neg (fun hk => h2 hk.symm)]
      rfl
    obtain ⟨body2, hw2, hr2⟩ :=
      ih (fun x hx => hRT x (by simp [hx])) hwf2.2 huq2.2 (acc ++ [(k, v)]) rest hdisj2
    obtain ⟨bv, hwv, hrv⟩ := hRT (k, v) (by simp) hwf2.1.2 (body2 ++ rest)
    refine ⟨write_sized (utf8Encode k) ++ (bv ++ body2), ?_, ?_⟩
    · rw [write_pairs, hwv, hw2]
    · have hklen : (utf8Encode k).length < 2 ^ 64 := by
        have := utf8Encode_length k
        have := hwf2.1.1
        omega
      rw [List.length_cons, read_map_loop_succ, List.append_assoc,
        read_write_sized _ hklen _]
      simp only []
      rw [List.append_assoc, hrv]
      simp only []
      rw [utf8DecodeLossy_encode_nil k hwf2.1.1.2, hacc2, hr2]
      simp

/-- Every well-formed value writes successfully and reads back to
itself in front of any continuation. -/
theorem wf_roundtrip_aux : ∀ (N : Nat) (v : Typed), sizeOf v ≤ N → wf v = true → RT v := by
  intro N
  induction N with
  | zero =>
    intro v hsize
    exact absurd hsize (by cases v <;> simp <;> omega)
  | succ N ih =>
    intro v hsize hwf
    cases v with
    | int n =>
      intro rest
      rw [wf] at hwf
      simp only [Bool.and_eq_true, decide_eq_true_eq] at hwf
      refine ⟨TYPE_INT :: write_varint n, rfl, ?_⟩
      rw [List.cons_append, read_typed_int, read_write_varint n hwf.1 hwf.2 rest]
      rfl
    | uint un =>
      intro rest
      rw [wf] at hwf
      simp only [decide_eq_true_eq] at hwf
      refine ⟨TYPE_UINT :: write_uvarint un, rfl, ?_⟩
      rw [List.cons_append, read_typed_uint, read_write_uvarint un hwf rest]
      rfl
    | float bits =>
      intro rest
      rw [wf] at hwf
      simp only [decide_eq_true_eq] at hwf
      refine ⟨TYPE_FLOAT :: write_uvarint bits, rfl, ?_⟩
      rw [List.cons_append, read_typed_float, read_write_uvarint bits hwf rest]
      rfl
    | bytes buf =>
      intro rest
      rw [wf] at hwf
      simp only [Bool.and_eq_true, decide_eq_true_eq] at hwf
      refine ⟨TYPE_BYTES :: write_sized buf, rfl, ?_⟩
      rw [List.cons_append, read_typed_bytes, read_write_sized buf hwf.1 rest]
      rfl
    | str sv =>
      intro rest
      rw [wf] at hwf
      simp only [Bool.and_eq_true, decide_eq_true_eq, List.all_eq_true] at hwf
      have hlen : (utf8Encode sv).length < 2 ^ 64 := by
        have := utf8Encode_length sv
        have := hwf.1
        omega
      refine ⟨TYPE_STRING :: write_sized (utf8Encode sv), rfl, ?_⟩
      rw [List.cons_append, read_typed_str, read_write_sized _ hlen rest]
      simp only [Except.map]
      rw [utf8DecodeLossy_encode_nil sv hwf.2]
    | list l =>
      intro rest
      rw [wf] at hwf
      simp only [Bool.and_eq_true, decide_eq_true_eq] at hwf
      have hel : ∀ e ∈ l, wf e = true → RT e := by
        intro e he hwfe
        apply ih e _ hwfe
        have h1 := List.sizeOf_lt_of_mem he
        have h2 : sizeOf (Typed.list l) = 1 + sizeOf l := by simp
        omega
      obtain ⟨body, hw, hr⟩ := elems_roundtrip l hel hwf.2 rest
      refine ⟨TYPE_LIST :: l.length :: body, ?_, ?_⟩
      · rw [write_typed, if_neg (by simp; omega), hw]
      · rw [List.cons_append, read_typed_list, List.cons_append, read_list_cons, hr]
        rfl
    | map m =>
      intro rest
      rw [wf] at hwf
      simp only [Bool.and_eq_true, decide_eq_true_eq] at hwf
      have hel : ∀ p ∈ m, wf p.2 = true → RT p.2 := by
        intro p hp hwfp
        apply ih p.2 _ hwfp
        have h1 := List.sizeOf_lt_of_mem hp
        have h2 : sizeOf (Typed.map m) = 1 + sizeOf m := by simp
        have h3 : sizeOf p.2 < sizeOf p := by
          obtain ⟨k2, v2⟩ := p
          simp only [Prod.mk.sizeOf_spec]
          omega
        omega
      obtain ⟨body, hw, hr⟩ :=
        pairs_roundtrip m hel hwf.2 hwf.1.2 [] rest (by intro p _; rw [mapFind?])
      refine ⟨TYPE_MAP :: m.length :: body, ?_, ?_⟩
      · rw [write_typed, if_neg (by simp; omega), hw]
      · rw [List.cons_append, read_typed_map, List.cons_append, read_map_cons]
        rw [show ([] : List (List Nat × Typed)) ++ m = m from rfl] at hr
        rw [hr]
        rfl

/-- Every well-formed value round-trips through the codec. -/
theorem wf_roundtrip (v : Typed) (hwf : wf v = true) : RT v :=
  wf_roundtrip_aux (sizeOf v) v (Nat.le_refl _) hwf

/-- Models `f64::is_nan` on the bit pattern: exponent bits all ones
and a nonzero mantissa. -/
def f64IsNaN (bits : Nat) : Bool :=
  decide ((bits >>> 52) &&& 0x7FF = 0x7FF) && decide (bits &&& (2 ^ 52 - 1) ≠ 0)

/-- Models the IEEE-754 comparison of `f64` on bit patterns, the
comparison the derived `PartialEq` of `Typed` uses for the Float
payload: NaN compares equal to nothing (itself included), +0.0 and
-0.0 compare equal, and any other values compare equal exactly when
their bits agree. -/
def f64BEq (x y : Nat) : Bool :=
  if f64IsNaN x || f64IsNaN y then false
  else decide (x = y) || (decide (x &&& (2 ^ 63 - 1) = 0) && decide (y &&& (2 ^ 63 - 1) = 0))

mutual
/-- Models the derived `PartialEq` of `Typed`: variant-wise structural
comparison, with Float compared by IEEE-754 equality and Map compared
as `HashMap` does (same size and every binding of the left present and
equal in the right). -/
def typedBEq : Typed → Typed → Bool
  | .int a, .int b => decide (a = b)
  | .uint a, .uint b => decide (a = b)
  | .float a, .float b => f64BEq a b
  | .bytes a, .bytes b => decide (a = b)
  | .str a, .str b => decide (a = b)
  | .list a, .list b => listBEq a b
  | .map a, .map b => decide (a.length = b.length) && mapSubBEq a b
  | _, _ => false

/-- Pointwise comparison of lists of values. -/
def listBEq : List Typed → List Typed → Bool
  | [], [] => true
  | a :: as2, b :: bs2 => typedBEq a b && listBEq as2 bs2
  | _, _ => false

/-- Every binding of the first map is present and equal in the
second. -/
def mapSubBEq : List (List Nat × Typed) → List (List Nat × Typed) → Bool
  | [], _ => true
  | (k, v) :: rest, b =>
    (match mapFind? b k with
     | some v2 => typedBEq v v2
     | none => false) && mapSubBEq rest b
end

mutual
/-- No Float anywhere in the value carries a NaN bit pattern. -/
def nanFree : Typed → Bool
  | .int _ => true
  | .uint _ => true
  | .float bits => !f64IsNaN bits
  | .bytes _ => true
  | .str _ => true
  | .list l => nanFreeElems l
  | .map m => nanFreePairs m

/-- Fact: `nanFree` for every element of a list. -/
def nanFreeElems : List Typed → Bool
  | [] => true
  | e :: es => nanFree e && nanFreeElems es

/-- Fact: `nanFree` for every value of a map. -/
def nanFreePairs : List (List Nat × Typed) → Bool
  | [] => true
  | (_, v) :: rest => nanFree v && nanFreePairs rest
end

/-- Under unique keys, membership determines the lookup. -/
theorem mapFind?_of_mem (m : List (List Nat × Typed)) (huniq : keysUnique m = true)
    (k : List Nat) (v : Typed) (hmem : (k, v) ∈ m) : mapFind? m k = some v := by
  induction m with
  | nil => simp at hmem
  | cons p tl ih =>
    obtain ⟨k2, v2⟩ := p
    rw [keysUnique] at huniq
    simp only [Bool.and_eq_true, Option.isNone_iff_eq_none] at huniq
    rw [mapFind?]
    rcases List.mem_cons.mp hmem with hhead | htail
    · injection hhead with h1 h2
      subst h1
      subst h2
      rw [if_pos rfl]
    · by_cases hk : k2 = k
      · exfalso
        subst hk
        have := (mapFind?_none_iff tl k2).mp huniq.1 (k2, v) htail
        simp at this
      · rw [if_neg hk]
        exact ih huniq.2 htail

/-- Well-formedness of a list of elements is pointwise. -/
theorem wfElems_mem (l : List Typed) (h : wfElems l = true) : ∀ e ∈ l, wf e = true := by
  induction l with
  | nil => simp
  | cons x xs ih =>
    rw [wfElems] at h
    simp only [Bool.and_eq_true] at h
    intro e he
    rcases List.mem_cons.mp he with h2 | h2
    · subst h2
      exact h.1
    · exact ih h.2 e h2

/-- Well-formedness of map entries gives well-formed values. -/
theorem wfPairs_mem (m : List (List Nat × Typed)) (h : wfPairs m = true) :
    ∀ p ∈ m, wf p.2 = true := by
  induction m with
  | nil => simp
  | cons x xs ih =>
    obtain ⟨k2, v2⟩ := x
    rw [wfPairs] at h
    simp only [Bool.and_eq_true] at h
    intro p hp
    rcases List.mem_cons.mp hp with h2 | h2
    · subst h2
      exact h.1.2
    · exact ih h.2 p h2

/-- NaN-freedom of a list of elements is pointwise. -/
theorem nanFreeElems_mem (l : List Typed) (h : nanFreeElems l = true) :
    ∀ e ∈ l, nanFree e = true := by
  induction l with
  | nil => simp
  | cons x xs ih =>
    rw [nanFreeElems] at h
    simp only [Bool.and_eq_true] at h
    intro e he
    rcases List.mem_cons.mp he with h2 | h2
    · subst h2
      exact h.1
    · exact ih h.2 e h2

/-- NaN-freedom of map entries gives NaN-free values. -/
theorem nanFreePairs_mem (m : List (List Nat × Typed)) (h : nanFreePairs m = true) :
    ∀ p ∈ m, nanFree p.2 = true := by
  induction m with
  | nil => simp
  | cons x xs ih =>
    obtain ⟨k2, v2⟩ := x
    rw [nanFreePairs] at h
    simp only [Bool.and_eq_true] at h
    intro p hp
    rcases List.mem_cons.mp hp with h2 | h2
    · subst h2
      exact h.1
    · exact ih h.2 p h2

/-- Reflexivity of `mapSubBEq` from reflexivity of the values. -/
theorem mapSubBEq_refl (msub mfull : List (List Nat × Typed))
    (hfind : ∀ p ∈ msub, mapFind? mfull p.1 = some p.2)
    (hbeq : ∀ p ∈ msub, typedBEq p.2 p.2 = true) : mapSubBEq msub mfull = true := by
  induction msub with
  | nil => rw [mapSubBEq]
  | cons p tl ih =>
    obtain ⟨k, v⟩ := p
    rw [mapSubBEq]
    rw [hfind (k, v) (by simp)]
    simp only [Bool.and_eq_true]
    exact ⟨hbeq (k, v) (by simp), ih (fun q hq => hfind q (by simp [hq]))
      (fun q hq => hbeq q (by simp [hq]))⟩

/-- Pointwise reflexivity of `listBEq`. -/
theorem listBEq_refl (l : List Typed) (h : ∀ e ∈ l, typedBEq e e = true) :
    listBEq l l = true := by
  induction l with
  | nil => rw [listBEq]
  | cons e es ih =>
    rw [listBEq]
    simp only [Bool.and_eq_true]
    exact ⟨h e (by simp), ih (fun x hx => h x (by simp [hx]))⟩

/-- The derived `PartialEq` of `Typed` is reflexive on well-formed
values that contain no NaN Float. -/
theorem typedBEq_refl_aux : ∀ (N : Nat) (v : Typed), sizeOf v ≤ N → wf v = true →
    nanFree v = true → typedBEq v v = true := by
  intro N
  induction N with
  | zero =>
    intro v hsize
    exact absurd hsize (by cases v <;> simp <;> omega)
  | succ N ih =>
    intro v hsize hwf hnan
    cases v with
    | int n => simp [typedBEq]
    | uint un => simp [typedBEq]
    | float bits =>
      rw [nanFree] at hnan
      rw [typedBEq, f64BEq]
      rw [if_neg (by simp_all)]
      simp
    | bytes buf => simp [typedBEq]
    | str sv => simp [typedBEq]
    | list l =>
      rw [wf] at hwf
      rw [nanFree] at hnan
      simp only [Bool.and_eq_true] at hwf
      rw [typedBEq]
      apply listBEq_refl
      intro e he
      apply ih e
      · have h1 := List.sizeOf_lt_of_mem he
        have h2 : sizeOf (Typed.list l) = 1 + sizeOf l := by simp
        omega
      · exact wfElems_mem l hwf.2 e he
      · exact nanFreeElems_mem l hnan e he
    | map m =>
      rw [wf] at hwf
      rw [nanFree] at hnan
      simp only [Bool.and_eq_true] at hwf
      rw [typedBEq]
      simp only [Bool.and_eq_true, decide_eq_true_eq]
      refine ⟨by simp, ?_⟩
      apply mapSubBEq_refl
      · intro p hp
        obtain ⟨k, v⟩ := p
        exact mapFind?_of_mem m hwf.1.2 k v hp
      · intro p hp
        apply ih p.2
        · have h1 := List.sizeOf_lt_of_mem hp
          have h2 : sizeOf (Typed.map m) = 1 + sizeOf m := by simp
          have h3 : sizeOf p.2 < sizeOf p := by
            obtain ⟨k2, v2⟩ := p
            simp only [Prod.mk.sizeOf_spec]
            omega
          omega
        · exact wfPairs_mem m hwf.2 p hp
        · exact nanFreePairs_mem m hnan p hp

/-- Fact: `typedBEq` is reflexive on well-formed NaN-free values. -/
theorem typedBEq_refl (v : Typed) (hwf : wf v = true) (hnan : nanFree v = true) :
    typedBEq v v = true :=
  typedBEq_refl_aux (sizeOf v) v (Nat.le_refl _) hwf hnan

/-- The entries of a map body in stream order: `n` repetitions of a
sized key (decoded lossily) followed by a value.  This is the
flattening of the entry loop before any insertion. -/
def readEntries : Nat → List Nat → Except IOErr (List (List Nat × Typed) × List Nat)
  | 0, bs => .ok ([], bs)
  | n + 1, bs =>
    match read_sized bs with
    | .error e => .error e
    | .ok (kb, r1) =>
      match read_typed r1 with
      | .error e2 => .error e2
      | .ok (v, r2) =>
        match readEntries n r2 with
        | .error e3 => .error e3
        | .ok (es, r3) => .ok ((utf8DecodeLossy kb, v) :: es, r3)

/-- The binding of the last occurrence of a key among entries in
stream order. -/
def lastBind : List (List Nat × Typed) → List Nat → Option Typed
  | [], _ => none
  | q :: es, k =>
    match lastBind es k with
    | some v => some v
    | none => if q.1 = k then some q.2 else none

/-- Lookup after inserting a key finds the inserted value. -/
theorem mapFind?_insert_self (m : List (List Nat × Typed)) (k : List Nat) (v : Typed) :
    mapFind? (mapInsert m k v) k = some v := by
  induction m with
  | nil => simp [mapInsert, mapFind?]
  | cons p tl ih =>
    obtain ⟨k2, v2⟩ := p
    rw [mapInsert]
    by_cases hk : k2 = k
    · rw [if_pos hk, mapFind?, if_pos rfl]
    · rw [if_neg hk, mapFind?, if_neg hk]
      exact ih

/-- Lookup of a different key is unchanged by an insertion. -/
theorem mapFind?_insert_ne (m : List (List Nat × Typed)) (k2 k : List Nat) (v : Typed)
    (h : k2 ≠ k) : mapFind? (mapInsert m k2 v) k = mapFind? m k := by
  induction m with
  | nil => simp [mapInsert, mapFind?, h]
  | cons p tl ih =>
    obtain ⟨k3, v3⟩ := p
    rw [mapInsert]
    by_cases hk : k3 = k2
    · rw [if_pos hk, mapFind?, mapFind?, if_neg h]
      rw [hk, if_neg h]
    · rw [if_neg hk, mapFind?, mapFind?]
      by_cases hk3 : k3 = k
      · rw [if_pos hk3, if_pos hk3]
      · rw [if_neg hk3, if_neg hk3]
        exact ih

/-- The entry loop is the fold of the insertions over the entries in
stream order. -/
theorem read_map_loop_eq_entries : ∀ (n : Nat) (m : List (List Nat × Typed)) (bs : List Nat),
    read_map_loop n m bs
      = (readEntries n bs).map
          (fun p => (p.1.foldl (fun acc q => mapInsert acc q.1 q.2) m, p.2)) := by
  intro n
  induction n with
  | zero =>
    intro m bs
    rw [read_map_loop_zero, readEntries]
    rfl
  | succ n ih =>
    intro m bs
    rw [read_map_loop_succ, readEntries]
    cases h1 : read_sized bs with
    | error e => rfl
    | ok p =>
      obtain ⟨kb, r1⟩ := p
      simp only []
      cases h2 : read_typed r1 with
      | error e2 => rfl
      | ok p2 =>
        obtain ⟨v, r2⟩ := p2
        simp only []
        rw [ih]
        cases h3 : readEntries n r2 with
        | error e3 => rfl
        | ok p3 =>
          obtain ⟨es, r3⟩ := p3
          simp [Except.map]

/-- A lookup in the fold of the insertions is the last binding of the
key among the entries, defaulting to the initial map. -/
theorem foldl_insert_find : ∀ (es : List (List Nat × Typed)) (m : List (List Nat × Typed))
    (k : List Nat),
    mapFind? (es.foldl (fun acc q => mapInsert acc q.1 q.2) m) k
      = match lastBind es k with
        | some v => some v
        | none => mapFind? m k := by
  intro es
  induction es with
  | nil =>
    intro m k
    rw [lastBind]
    rfl
  | cons q tl ih =>
    intro m k
    rw [List.foldl_cons, ih, lastBind]
    cases htl : lastBind tl k with
    | some v => rfl
    | none =>
      simp only []
      by_cases hk : q.1 = k
      · rw [if_pos hk, hk, mapFind?_insert_self]
      · rw [if_neg hk, mapFind?_insert_ne _ _ _ _ hk]

/-- C1 counterexample: the claim `read_typed(write_typed(v)) == v`
fails on the code at `v = Float(NaN)`.  The encoding round-trips to the
bit-identical value, but the derived `PartialEq` (which compares Float
by IEEE-754 equality) rejects `NaN == NaN`. -/
theorem value_roundtrip_counterexample :
    (∃ bs, write_typed (.float 0x7FF8000000000000) = .ok bs
      ∧ read_typed bs = .ok (.float 0x7FF8000000000000, []))
    ∧ typedBEq (.float 0x7FF8000000000000) (.float 0x7FF8000000000000) = false := by
  constructor
  · obtain ⟨bs, hw, hr⟩ := wf_roundtrip (.float 0x7FF8000000000000) (by decide) []
    rw [List.append_nil] at hr
    exact ⟨bs, hw, hr⟩
  · decide

/-- C1 (amended): for every constructible Tagged Value whose every
container has at most 254 elements/entries, decoding the bytes of
`write_typed` yields a structurally identical value (Float compared by
bit pattern); the Rust `==` comparison additionally holds whenever the
value contains no NaN Float. -/
theorem value_roundtrip (v : Typed) (hwf : wf v = true) :
    ∃ bs, write_typed v = .ok bs ∧ read_typed bs = .ok (v, [])
      ∧ (nanFree v = true → typedBEq v v = true) := by
  obtain ⟨bs, hw, hr⟩ := wf_roundtrip v hwf []
  rw [List.append_nil] at hr
  exact ⟨bs, hw, hr, fun hn => typedBEq_refl v hwf hn⟩

/-- C1 witness: the round-trip at a concrete value exercising every
recursive variant. -/
theorem value_roundtrip_witness :
    wf (Typed.list [Typed.int (-1), Typed.str [104, 105],
      Typed.map [([97], Typed.uint 300)], Typed.float 0]) = true
    ∧ ∃ bs, write_typed (Typed.list [Typed.int (-1), Typed.str [104, 105],
        Typed.map [([97], Typed.uint 300)], Typed.float 0]) = .ok bs
      ∧ read_typed bs = .ok (Typed.list [Typed.int (-1), Typed.str [104, 105],
          Typed.map [([97], Typed.uint 300)], Typed.float 0], [])
      ∧ (nanFree (Typed.list [Typed.int (-1), Typed.str [104, 105],
          Typed.map [([97], Typed.uint 300)], Typed.float 0]) = true →
        typedBEq (Typed.list [Typed.int (-1), Typed.str [104, 105],
            Typed.map [([97], Typed.uint 300)], Typed.float 0])
          (Typed.list [Typed.int (-1), Typed.str [104, 105],
            Typed.map [([97], Typed.uint 300)], Typed.float 0]) = true) :=
  ⟨by decide, value_roundtrip _ (by decide)⟩

/-- Writing map entries succeeds whenever every value is
well-formed. -/
theorem write_pairs_total (m : List (List Nat × Typed)) (h : ∀ p ∈ m, wf p.2 = true) :
    ∃ body, write_pairs m = .ok body := by
  induction m with
  | nil => exact ⟨[], rfl⟩
  | cons p tl ih =>
    obtain ⟨k, v⟩ := p
    obtain ⟨body2, hw2⟩ := ih (fun q hq => h q (by simp [hq]))
    obtain ⟨bv, hwv, _⟩ := wf_roundtrip v (h (k, v) (by simp)) []
    exact ⟨write_sized (utf8Encode k) ++ (bv ++ body2), by rw [write_pairs, hwv, hw2]⟩

/-- C4: Container size boundary.  A list or map of exactly 254
well-formed elements/entries encodes successfully with count byte 254;
255 or more elements/entries fail with the container-size error before
anything is emitted; and every successful container encoding starts
with its count byte, which never exceeds 254. -/
theorem container_boundary :
    (∀ l : List Typed, l.length = 254 → wfElems l = true →
      ∃ body, write_list l = .ok (254 :: body))
    ∧ (∀ l : List Typed, 255 ≤ l.length → write_list l = .error .containerTooLarge)
    ∧ (∀ m : List (List Nat × Typed), m.length = 254 → wfPairs m = true →
      ∃ body, write_map m = .ok (254 :: body))
    ∧ (∀ m : List (List Nat × Typed), 255 ≤ m.length →
      write_map m = .error .containerTooLarge)
    ∧ (∀ (l : List Typed) (bs : List Nat), write_list l = .ok bs →
      ∃ body, bs = l.length :: body ∧ l.length ≤ 254)
    ∧ (∀ (m : List (List Nat × Typed)) (bs : List Nat), write_map m = .ok bs →
      ∃ body, bs = m.length :: body ∧ m.length ≤ 254) := by
  refine ⟨?_, ?_, ?_, ?_, ?_, ?_⟩
  · intro l hlen hwf
    obtain ⟨body, hw, _⟩ := elems_roundtrip l (fun e _ he => wf_roundtrip e he) hwf []
    refine ⟨body, ?_⟩
    rw [write_list, if_neg (by simp [hlen]), hw, hlen]
  · intro l hlen
    rw [write_list, if_pos (by simp only [CONTAINER_CAPACITY]; omega)]
  · intro m hlen hwf
    obtain ⟨body, hw⟩ := write_pairs_total m (wfPairs_mem m hwf)
    refine ⟨body, ?_⟩
    rw [write_map, if_neg (by simp [hlen]), hw, hlen]
  · intro m hlen
    rw [write_map, if_pos (by simp only [CONTAINER_CAPACITY]; omega)]
  · intro l bs h
    rw [write_list] at h
    by_cases hc : CONTAINER_CAPACITY ≤ l.length
    · rw [if_pos hc] at h
      exact absurd h (by simp)
    · rw [if_neg hc] at h
      cases hw : write_elems l with
      | error e =>
        rw [hw] at h
        exact absurd h (by simp)
      | ok body =>
        rw [hw] at h
        simp only [Except.ok.injEq] at h
        simp only [CONTAINER_CAPACITY] at hc
        exact ⟨body, h.symm, by omega⟩
  · intro m bs h
    rw [write_map] at h
    by_cases hc : CONTAINER_CAPACITY ≤ m.length
    · rw [if_pos hc] at h
      exact absurd h (by simp)
    · rw [if_neg hc] at h
      cases hw : write_pairs m with
      | error e =>
        rw [hw] at h
        exact absurd h (by simp)
      | ok body =>
        rw [hw] at h
        simp only [Except.ok.injEq] at h
        simp only [CONTAINER_CAPACITY] at hc
        exact ⟨body, h.symm, by omega⟩

/-- C4 witness: lists and maps at the boundary sizes 254 and 255. -/
theorem container_boundary_witness :
    (∃ body, write_list (List.replicate 254 (Typed.int 0)) = .ok (254 :: body))
    ∧ write_list (List.replicate 255 (Typed.int 0)) = .error .containerTooLarge
    ∧ (∃ body, write_map (List.replicate 254 ([97], Typed.int 0)) = .ok (254 :: body))
    ∧ write_map (List.replicate 255 ([97], Typed.int 0)) = .error .containerTooLarge :=
  ⟨container_boundary.1 _ (by simp) (by decide),
    container_boundary.2.1 _ (by simp),
    container_boundary.2.2.1 _ (by simp) (by decide),
    container_boundary.2.2.2.1 _ (by simp)⟩

/-- C5 counterexample: encoding `Uint(300)` does not produce exactly
`[0xAC, 0x02]` — the tag byte `u` (0x75) comes first — and decoding
`[0xAC, 0x02]` fails on the unknown tag byte 0xAC. -/
theorem uint300_counterexample :
    write_typed (.uint 300) = .ok [0x75, 0xAC, 0x02]
    ∧ (Except.ok [0x75, 0xAC, 0x02] : Except IOErr (List Nat)) ≠ .ok [0xAC, 0x02]
    ∧ read_typed [0xAC, 0x02] = .error (.unknownTypeTag 0xAC) := by
  refine ⟨by simp [write_typed, write_uvarint], by simp, ?_⟩
  exact read_typed_unknown 0xAC [0x02] (by decide)

/-- C5 (amended): encoding `Uint(300)` produces the tag byte `u`
(0x75) followed by the varint bytes `[0xAC, 0x02]`, and decoding those
three bytes yields `Uint(300)`. -/
theorem uint300_scenario :
    write_typed (.uint 300) = .ok [0x75, 0xAC, 0x02]
    ∧ read_typed [0x75, 0xAC, 0x02] = .ok (.uint 300, []) := by
  refine ⟨by simp [write_typed, write_uvarint], ?_⟩
  rw [show ([0x75, 0xAC, 0x02] : List Nat) = TYPE_UINT :: [0xAC, 0x02] from rfl]
  rw [read_typed_uint]
  rw [show read_uvarint [0xAC, 0x02] = .ok (300, []) from rfl]
  rfl

/-- C6: Float bit-pattern preservation.  Every 64-bit pattern —
including every NaN payload and both signed zeros — is encoded as the
tag byte `f` followed by the plain (non-zigzag) uvarint of the raw
bits, and decodes back to a Float with exactly the same bit
pattern. -/
theorem float_bitpattern_roundtrip (bits : Nat) (h : bits < 2 ^ 64) :
    write_typed (.float bits) = .ok (TYPE_FLOAT :: write_uvarint bits)
    ∧ read_typed (TYPE_FLOAT :: write_uvarint bits) = .ok (.float bits, []) := by
  refine ⟨rfl, ?_⟩
  have h1 := read_write_uvarint bits h []
  rw [List.append_nil] at h1
  rw [read_typed_float, h1]
  rfl

/-- C6 witness: the bit pattern of a NaN with payload round-trips
exactly, as do both signed zeros. -/
theorem float_bitpattern_roundtrip_witness :
    (write_typed (.float 0x7FF8000000000001) = .ok (TYPE_FLOAT :: write_uvarint 0x7FF8000000000001)
      ∧ read_typed (TYPE_FLOAT :: write_uvarint 0x7FF8000000000001)
        = .ok (.float 0x7FF8000000000001, []))
    ∧ (write_typed (.float 0x8000000000000000) = .ok (TYPE_FLOAT :: write_uvarint 0x8000000000000000)
      ∧ read_typed (TYPE_FLOAT :: write_uvarint 0x8000000000000000)
        = .ok (.float 0x8000000000000000, []))
    ∧ (write_typed (.float 0) = .ok (TYPE_FLOAT :: write_uvarint 0)
      ∧ read_typed (TYPE_FLOAT :: write_uvarint 0) = .ok (.float 0, [])) :=
  ⟨float_bitpattern_roundtrip 0x7FF8000000000001 (by norm_num),
    float_bitpattern_roundtrip 0x8000000000000000 (by norm_num),
    float_bitpattern_roundtrip 0 (by norm_num)⟩

/-- C7: Unknown tag rejection.  Decoding any input whose first byte is
none of the seven recognized tag bytes fails with an error carrying
the offending byte. -/
theorem unknown_tag_rejected (t : Nat) (bs : List Nat)
    (h : t ≠ TYPE_INT ∧ t ≠ TYPE_UINT ∧ t ≠ TYPE_FLOAT ∧ t ≠ TYPE_BYTES ∧ t ≠ TYPE_STRING
      ∧ t ≠ TYPE_LIST ∧ t ≠ TYPE_MAP) :
    read_typed (t :: bs) = .error (.unknownTypeTag t) :=
  read_typed_unknown t bs h

/-- C7 witness: the byte `x` (0x78) is rejected with itself in the
error. -/
theorem unknown_tag_rejected_witness :
    read_typed (0x78 :: []) = .error (.unknownTypeTag 0x78) :=
  unknown_tag_rejected 0x78 [] (by decide)

/-- C8: Duplicate-key decode determinism.  Decoding a map is the fold
of `HashMap::insert` over the entries in stream order, and a lookup in
that fold returns the value of the last occurrence of the key (last
write wins); a crafted two-entry encoding with the duplicate key "a"
decodes to the second value. -/
theorem read_map_last_write_wins :
    (∀ (n : Nat) (bs : List Nat), read_map (n :: bs)
      = (readEntries n bs).map
          (fun p => (p.1.foldl (fun acc q => mapInsert acc q.1 q.2) [], p.2)))
    ∧ (∀ (es : List (List Nat × Typed)) (k : List Nat),
        mapFind? (es.foldl (fun acc q => mapInsert acc q.1 q.2) []) k = lastBind es k)
    ∧ read_map [2, 1, 97, TYPE_UINT, 1, 1, 97, TYPE_UINT, 2]
        = .ok ([([97], .uint 2)], []) := by
  have hdec : utf8DecodeLossy [97] = [97] := by
    have h1 := utf8DecodeLossy_encode_nil [97] (by decide)
    rw [show utf8Encode [97] = [97] from rfl] at h1
    exact h1
  refine ⟨?_, ?_, ?_⟩
  · intro n bs
    rw [read_map_cons, read_map_loop_eq_entries]
  · intro es k
    rw [foldl_insert_find]
    cases h : lastBind es k with
    | some v => rfl
    | none => rw [mapFind?]
  · rw [show ([2, 1, 97, TYPE_UINT, 1, 1, 97, TYPE_UINT, 2] : List Nat)
        = 2 :: [1, 97, TYPE_UINT, 1, 1, 97, TYPE_UINT, 2] from rfl]
    rw [read_map_cons, read_map_loop_succ]
    rw [show read_sized [1, 97, TYPE_UINT, 1, 1, 97, TYPE_UINT, 2]
        = .ok ([97], [TYPE_UINT, 1, 1, 97, TYPE_UINT, 2]) from rfl]
    simp only []
    rw [show ([TYPE_UINT, 1, 1, 97, TYPE_UINT, 2] : List Nat)
        = TYPE_UINT :: [1, 1, 97, TYPE_UINT, 2] from rfl]
    rw [read_typed_uint]
    rw [show read_uvarint [1, 1, 97, TYPE_UINT, 2] = .ok (1, [1, 97, TYPE_UINT, 2]) from rfl]
    simp only [Except.map]
    rw [read_map_loop_succ]
    rw [show read_sized [1, 97, TYPE_UINT, 2] = .ok ([97], [TYPE_UINT, 2]) from rfl]
    simp only []
    rw [show ([TYPE_UINT, 2] : List Nat) = TYPE_UINT :: [2] from rfl, read_typed_uint]
    rw [show read_uvarint [2] = .ok (2, []) from rfl]
    simp only [Except.map]
    rw [read_map_loop_zero, hdec]
    rfl

/-- Reading a run of `Int(0)` encodings: each is the tag byte `i`
followed by the zigzag varint 0. -/
theorem read_int0_loop : ∀ (k : Nat) (rest : List Nat),
    read_list_loop k ((List.replicate k ([TYPE_INT, 0] : List Nat)).flatten ++ rest)
      = .ok (List.replicate k (Typed.int 0), rest) := by
  intro k
  induction k with
  | zero =>
    intro rest
    simp [read_list_loop_zero]
  | succ k ih =>
    intro rest
    rw [List.replicate_succ, List.flatten_cons]
    rw [show ([TYPE_INT, 0] ++ (List.replicate k ([TYPE_INT, 0] : List Nat)).flatten) ++ rest
        = TYPE_INT :: (0 :: ((List.replicate k ([TYPE_INT, 0] : List Nat)).flatten ++ rest))
        from by simp]
    rw [read_list_loop_succ, read_typed_int]
    rw [show read_varint (0 :: ((List.replicate k ([TYPE_INT, 0] : List Nat)).flatten ++ rest))
        = .ok (0, (List.replicate k ([TYPE_INT, 0] : List Nat)).flatten ++ rest) from rfl]
    simp only [Except.map]
    rw [ih, List.replicate_succ]

/-- C9: decode is more permissive than encode on container counts.
The byte input with count byte 255 followed by 255 `Int(0)` encodings
decodes to a 255-element list, yet `write_list` fails with the
container-size error on every 255-element list — so a successfully
decoded value is not always re-encodable. -/
theorem decode_more_permissive_than_encode :
    read_list (255 :: (List.replicate 255 ([TYPE_INT, 0] : List Nat)).flatten)
      = .ok (List.replicate 255 (Typed.int 0), [])
    ∧ (List.replicate 255 (Typed.int 0)).length = 255
    ∧ (∀ l : List Typed, l.length = 255 → write_list l = .error .containerTooLarge) := by
  refine ⟨?_, by simp, ?_⟩
  · rw [read_list_cons]
    have h1 := read_int0_loop 255 []
    rw [List.append_nil] at h1
    exact h1
  · intro l hl
    rw [write_list, if_pos (by simp only [CONTAINER_CAPACITY]; omega)]

/-- C9 witness: the decoded 255-element list is itself rejected by
`write_list`. -/
theorem decode_more_permissive_than_encode_witness :
    write_list (List.replicate 255 (Typed.int 0)) = .error .containerTooLarge :=
  decode_more_permissive_than_encode.2.2 (List.replicate 255 (Typed.int 0)) (by simp)

end Xdcodec